import Mathlib

/-!
Verification of the portfolio accounting and backtesting engine of the
`ai-hedge-fund` repository, shallowly embedded in Lean 4.

Decimals of the source are modelled as exact rationals (`ℚ`), Python `int`
share counts as `ℤ`.  Python's `int(x)` conversion (truncation toward zero)
is modelled by `ratTrunc`.  A mutating method on the `Backtester` class
becomes a pure function taking a `Portfolio` and returning the function
result together with the updated `Portfolio`; a Python `KeyError` becomes
`Option.none`.  The per-ticker dictionaries become total functions from
ticker strings; `Backtester.__init__` initializes every tracked ticker's
entry to zeros, which the total-function model reproduces, and all theorems
only touch tickers of the portfolio's ticker list.
-/

namespace HedgeFund

/-- Python `int(x)` on a rational: truncation toward zero. -/
def ratTrunc (x : ℚ) : ℤ := if 0 ≤ x then ⌊x⌋ else ⌈x⌉

/-- Per-instrument position state, from `Backtester.__init__`
(`portfolio["positions"][ticker]`). -/
@[ext] structure Position where
  long : ℤ
  short : ℤ
  long_cost_basis : ℚ
  short_cost_basis : ℚ
  short_margin_used : ℚ
  deriving Repr, DecidableEq

/-- Aggregate account state, from `Backtester.__init__` (`self.portfolio`),
together with the ticker list the backtester tracks.  The two realized-gains
ledgers are split into two maps. -/
@[ext] structure Portfolio where
  cash : ℚ
  margin_used : ℚ
  margin_requirement : ℚ
  tickers : List String
  positions : String → Position
  realized_gains_long : String → ℚ
  realized_gains_short : String → ℚ

/-- The freshly initialized portfolio of `Backtester.__init__`. -/
def initPortfolio (tickers : List String) (initial_capital : ℚ)
    (initial_margin_requirement : ℚ) : Portfolio where
  cash := initial_capital
  margin_used := 0
  margin_requirement := initial_margin_requirement
  tickers := tickers
  positions := fun _ => ⟨0, 0, 0, 0, 0⟩
  realized_gains_long := fun _ => 0
  realized_gains_short := fun _ => 0

/-- Pointwise update of a ticker-indexed map (a Python dict assignment). -/
def updMap {α : Type} (f : String → α) (t : String) (v : α) : String → α :=
  fun s => if s = t then v else f s

/-- `Backtester.execute_trade`.  Returns the filled quantity and the updated
portfolio.  Each branch mirrors the corresponding branch of the source. -/
def execute_trade (p : Portfolio) (ticker : String) (action : String)
    (quantity : ℚ) (current_price : ℚ) : ℤ × Portfolio :=
  if quantity ≤ 0 then (0, p)
  else
    let q : ℤ := ratTrunc quantity
    let position := p.positions ticker
    if action = "buy" then
      let cost : ℚ := q * current_price
      if cost ≤ p.cash then
        let old_shares := position.long
        let old_cost_basis := position.long_cost_basis
        let total_shares := old_shares + q
        let basis := if 0 < total_shares then
            (old_cost_basis * old_shares + cost) / total_shares
          else position.long_cost_basis
        let position' := { position with
          long := position.long + q
          long_cost_basis := basis }
        (q, { p with
          cash := p.cash - cost
          positions := updMap p.positions ticker position' })
      else
        let max_quantity : ℤ := ratTrunc (p.cash / current_price)
        if 0 < max_quantity then
          let cost : ℚ := max_quantity * current_price
          let old_shares := position.long
          let old_cost_basis := position.long_cost_basis
          let total_shares := old_shares + max_quantity
          let basis := if 0 < total_shares then
              (old_cost_basis * old_shares + cost) / total_shares
            else position.long_cost_basis
          let position' := { position with
            long := position.long + max_quantity
            long_cost_basis := basis }
          (max_quantity, { p with
            cash := p.cash - cost
            positions := updMap p.positions ticker position' })
        else (0, p)
    else if action = "sell" then
      let q' : ℤ := min q position.long
      if 0 < q' then
        let avg_cost_per_share : ℚ :=
          if 0 < position.long then position.long_cost_basis else 0
        let realized_gain : ℚ := (current_price - avg_cost_per_share) * q'
        let newLong := position.long - q'
        let position' := { position with
          long := newLong
          long_cost_basis := if newLong = 0 then 0 else position.long_cost_basis }
        (q', { p with
          cash := p.cash + q' * current_price
          positions := updMap p.positions ticker position'
          realized_gains_long :=
            updMap p.realized_gains_long ticker
              (p.realized_gains_long ticker + realized_gain) })
      else (0, p)
    else if action = "short" then
      let proceeds : ℚ := current_price * q
      let margin_required : ℚ := proceeds * p.margin_requirement
      if margin_required ≤ p.cash then
        let old_short_shares := position.short
        let old_cost_basis := position.short_cost_basis
        let total_shares := old_short_shares + q
        let basis := if 0 < total_shares then
            (old_cost_basis * old_short_shares + current_price * q) / total_shares
          else position.short_cost_basis
        let position' := { position with
          short := position.short + q
          short_cost_basis := basis
          short_margin_used := position.short_margin_used + margin_required }
        (q, { p with
          margin_used := p.margin_used + margin_required
          cash := p.cash + proceeds - margin_required
          positions := updMap p.positions ticker position' })
      else
        let margin_ratio := p.margin_requirement
        let max_quantity : ℤ :=
          if 0 < margin_ratio then ratTrunc (p.cash / (current_price * margin_ratio))
          else 0
        if 0 < max_quantity then
          let proceeds : ℚ := current_price * max_quantity
          let margin_required : ℚ := proceeds * margin_ratio
          let old_short_shares := position.short
          let old_cost_basis := position.short_cost_basis
          let total_shares := old_short_shares + max_quantity
          let basis := if 0 < total_shares then
              (old_cost_basis * old_short_shares + current_price * max_quantity) /
                total_shares
            else position.short_cost_basis
          let position' := { position with
            short := position.short + max_quantity
            short_cost_basis := basis
            short_margin_used := position.short_margin_used + margin_required }
          (max_quantity, { p with
            margin_used := p.margin_used + margin_required
            cash := p.cash + proceeds - margin_required
            positions := updMap p.positions ticker position' })
        else (0, p)
    else if action = "cover" then
      let q' : ℤ := min q position.short
      if 0 < q' then
        let cover_cost : ℚ := q' * current_price
        let avg_short_price : ℚ :=
          if 0 < position.short then position.short_cost_basis else 0
        let realized_gain : ℚ := (avg_short_price - current_price) * q'
        let portion_covered : ℚ :=
          if 0 < position.short then (q' : ℚ) / position.short else 1
        let margin_to_release : ℚ := portion_covered * position.short_margin_used
        let newShort := position.short - q'
        let position' := { position with
          short := newShort
          short_margin_used :=
            if newShort = 0 then 0
            else position.short_margin_used - margin_to_release
          short_cost_basis := if newShort = 0 then 0 else position.short_cost_basis }
        (q', { p with
          margin_used := p.margin_used - margin_to_release
          cash := p.cash + margin_to_release - cover_cost
          positions := updMap p.positions ticker position'
          realized_gains_short :=
            updMap p.realized_gains_short ticker
              (p.realized_gains_short ticker + realized_gain) })
      else (0, p)
    else (0, p)

/-- One trade request of the backtest driver: ticker, action, requested
quantity and the day's price. -/
structure Trade where
  ticker : String
  action : String
  quantity : ℚ
  price : ℚ

/-- A sequence of `execute_trade` calls, discarding the returned fills. -/
def runTrades (p : Portfolio) (trades : List Trade) : Portfolio :=
  trades.foldl (fun acc tr => (execute_trade acc tr.ticker tr.action tr.quantity tr.price).2) p

/-! ### Branch characterizations of `execute_trade` -/

lemma exec_nonpos (p : Portfolio) (t a : String) (q pr : ℚ) (h : q ≤ 0) :
    execute_trade p t a q pr = (0, p) := by
  simp only [execute_trade, if_pos h]

lemma exec_buy_full (p : Portfolio) (t : String) (q pr : ℚ) (hq : ¬ q ≤ 0)
    (hc : (ratTrunc q : ℚ) * pr ≤ p.cash) :
    execute_trade p t "buy" q pr =
      (ratTrunc q,
       { p with
         cash := p.cash - (ratTrunc q : ℚ) * pr
         positions := updMap p.positions t
           { p.positions t with
             long := (p.positions t).long + ratTrunc q
             long_cost_basis :=
               if 0 < (p.positions t).long + ratTrunc q then
                 ((p.positions t).long_cost_basis * ((p.positions t).long : ℚ) +
                   (ratTrunc q : ℚ) * pr) / (((p.positions t).long + ratTrunc q : ℤ) : ℚ)
               else (p.positions t).long_cost_basis } }) := by
  simp only [execute_trade]
  rw [if_neg hq, if_pos trivial, if_pos hc]

lemma exec_buy_capped (p : Portfolio) (t : String) (q pr : ℚ) (hq : ¬ q ≤ 0)
    (hc : ¬ (ratTrunc q : ℚ) * pr ≤ p.cash) :
    execute_trade p t "buy" q pr =
      (if 0 < ratTrunc (p.cash / pr) then
        (ratTrunc (p.cash / pr),
         { p with
           cash := p.cash - (ratTrunc (p.cash / pr) : ℚ) * pr
           positions := updMap p.positions t
             { p.positions t with
               long := (p.positions t).long + ratTrunc (p.cash / pr)
               long_cost_basis :=
                 if 0 < (p.positions t).long + ratTrunc (p.cash / pr) then
                   ((p.positions t).long_cost_basis * ((p.positions t).long : ℚ) +
                     (ratTrunc (p.cash / pr) : ℚ) * pr) /
                     (((p.positions t).long + ratTrunc (p.cash / pr) : ℤ) : ℚ)
                 else (p.positions t).long_cost_basis } })
       else (0, p)) := by
  simp only [execute_trade]
  rw [if_neg hq, if_pos trivial, if_neg hc]

lemma exec_sell_pos (p : Portfolio) (t : String) (q pr : ℚ) (hq : ¬ q ≤ 0)
    (hf : 0 < min (ratTrunc q) (p.positions t).long) :
    execute_trade p t "sell" q pr =
      (min (ratTrunc q) (p.positions t).long,
       { p with
         cash := p.cash + ((min (ratTrunc q) (p.positions t).long : ℤ) : ℚ) * pr
         positions := updMap p.positions t
           { p.positions t with
             long := (p.positions t).long - min (ratTrunc q) (p.positions t).long
             long_cost_basis :=
               if (p.positions t).long - min (ratTrunc q) (p.positions t).long = 0 then 0
               else (p.positions t).long_cost_basis }
         realized_gains_long := updMap p.realized_gains_long t
           (p.realized_gains_long t +
             (pr - (if 0 < (p.positions t).long then (p.positions t).long_cost_basis else 0)) *
               ((min (ratTrunc q) (p.positions t).long : ℤ) : ℚ)) }) := by
  simp only [execute_trade]
  rw [if_neg hq, if_neg (by decide : ¬ ("sell" = "buy")), if_pos trivial, if_pos hf]

lemma exec_sell_zero (p : Portfolio) (t : String) (q pr : ℚ) (hq : ¬ q ≤ 0)
    (hf : ¬ 0 < min (ratTrunc q) (p.positions t).long) :
    execute_trade p t "sell" q pr = (0, p) := by
  simp only [execute_trade]
  rw [if_neg hq, if_neg (by decide : ¬ ("sell" = "buy")), if_pos trivial, if_neg hf]

lemma exec_short_full (p : Portfolio) (t : String) (q pr : ℚ) (hq : ¬ q ≤ 0)
    (hc : pr * (ratTrunc q : ℚ) * p.margin_requirement ≤ p.cash) :
    execute_trade p t "short" q pr =
      (ratTrunc q,
       { p with
         margin_used := p.margin_used + pr * (ratTrunc q : ℚ) * p.margin_requirement
         cash := p.cash + pr * (ratTrunc q : ℚ) - pr * (ratTrunc q : ℚ) * p.margin_requirement
         positions := updMap p.positions t
           { p.positions t with
             short := (p.positions t).short + ratTrunc q
             short_cost_basis :=
               if 0 < (p.positions t).short + ratTrunc q then
                 ((p.positions t).short_cost_basis * ((p.positions t).short : ℚ) +
                   pr * (ratTrunc q : ℚ)) / (((p.positions t).short + ratTrunc q : ℤ) : ℚ)
               else (p.positions t).short_cost_basis
             short_margin_used :=
               (p.positions t).short_margin_used + pr * (ratTrunc q : ℚ) * p.margin_requirement } }) := by
  simp only [execute_trade]
  rw [if_neg hq, if_neg (by decide : ¬ ("short" = "buy")),
    if_neg (by decide : ¬ ("short" = "sell")), if_pos trivial, if_pos hc]

lemma exec_short_insufficient (p : Portfolio) (t : String) (q pr : ℚ) (hq : ¬ q ≤ 0)
    (hc : ¬ pr * (ratTrunc q : ℚ) * p.margin_requirement ≤ p.cash) :
    execute_trade p t "short" q pr =
      (let max_quantity : ℤ :=
        if 0 < p.margin_requirement then ratTrunc (p.cash / (pr * p.margin_requirement))
        else 0
      if 0 < max_quantity then
        (max_quantity,
         { p with
           margin_used := p.margin_used + pr * (max_quantity : ℚ) * p.margin_requirement
           cash := p.cash + pr * (max_quantity : ℚ) - pr * (max_quantity : ℚ) * p.margin_requirement
           positions := updMap p.positions t
             { p.positions t with
               short := (p.positions t).short + max_quantity
               short_cost_basis :=
                 if 0 < (p.positions t).short + max_quantity then
                   ((p.positions t).short_cost_basis * ((p.positions t).short : ℚ) +
                     pr * (max_quantity : ℚ)) / (((p.positions t).short + max_quantity : ℤ) : ℚ)
                 else (p.positions t).short_cost_basis
               short_margin_used :=
                 (p.positions t).short_margin_used + pr * (max_quantity : ℚ) * p.margin_requirement } })
      else (0, p)) := by
  simp only [execute_trade]
  rw [if_neg hq, if_neg (by decide : ¬ ("short" = "buy")),
    if_neg (by decide : ¬ ("short" = "sell")), if_pos trivial, if_neg hc]

lemma exec_cover_pos (p : Portfolio) (t : String) (q pr : ℚ) (hq : ¬ q ≤ 0)
    (hf : 0 < min (ratTrunc q) (p.positions t).short) :
    execute_trade p t "cover" q pr =
      (min (ratTrunc q) (p.positions t).short,
       let f : ℤ := min (ratTrunc q) (p.positions t).short
       let portion : ℚ :=
         if 0 < (p.positions t).short then (f : ℚ) / ((p.positions t).short : ℚ) else 1
       let release : ℚ := portion * (p.positions t).short_margin_used
       { p with
         margin_used := p.margin_used - release
         cash := p.cash + release - (f : ℚ) * pr
         positions := updMap p.positions t
           { p.positions t with
             short := (p.positions t).short - f
             short_margin_used :=
               if (p.positions t).short - f = 0 then 0
               else (p.positions t).short_margin_used - release
             short_cost_basis :=
               if (p.positions t).short - f = 0 then 0 else (p.positions t).short_cost_basis }
         realized_gains_short := updMap p.realized_gains_short t
           (p.realized_gains_short t +
             ((if 0 < (p.positions t).short then (p.positions t).short_cost_basis else 0) - pr) *
               (f : ℚ)) }) := by
  simp only [execute_trade]
  rw [if_neg hq, if_neg (by decide : ¬ ("cover" = "buy")),
    if_neg (by decide : ¬ ("cover" = "sell")), if_neg (by decide : ¬ ("cover" = "short")),
    if_pos trivial, if_pos hf]

lemma exec_cover_zero (p : Portfolio) (t : String) (q pr : ℚ) (hq : ¬ q ≤ 0)
    (hf : ¬ 0 < min (ratTrunc q) (p.positions t).short) :
    execute_trade p t "cover" q pr = (0, p) := by
  simp only [execute_trade]
  rw [if_neg hq, if_neg (by decide : ¬ ("cover" = "buy")),
    if_neg (by decide : ¬ ("cover" = "sell")), if_neg (by decide : ¬ ("cover" = "short")),
    if_pos trivial, if_neg hf]

lemma exec_unknown (p : Portfolio) (t a : String) (q pr : ℚ)
    (h1 : a ≠ "buy") (h2 : a ≠ "sell") (h3 : a ≠ "short") (h4 : a ≠ "cover") :
    execute_trade p t a q pr = (0, p) := by
  by_cases hq : q ≤ 0
  · exact exec_nonpos p t a q pr hq
  · simp only [execute_trade]
    rw [if_neg hq, if_neg h1, if_neg h2, if_neg h3, if_neg h4]

/-! ### Valuation (`Backtester.calculate_portfolio_value`) -/

/-- The loop body of `calculate_portfolio_value`, accumulating over the
ticker list.  A price missing from the `current_prices` dict raises a
`KeyError` in the source, modelled by `none`. -/
def calc_value_loop (positions : String → Position) (current_prices : String → Option ℚ) :
    List String → ℚ → Option ℚ
  | [], total_value => some total_value
  | ticker :: rest, total_value =>
    match current_prices ticker with
    | none => none
    | some price =>
      let position := positions ticker
      let long_value : ℚ := (position.long : ℚ) * price
      let v1 := total_value + long_value
      let v2 := if 0 < position.short then v1 - (position.short : ℚ) * price else v1
      calc_value_loop positions current_prices rest v2

/-- `Backtester.calculate_portfolio_value`: cash plus long market value minus
short market value, iterating over the tracked tickers. -/
def calculate_portfolio_value (p : Portfolio) (current_prices : String → Option ℚ) :
    Option ℚ :=
  calc_value_loop p.positions current_prices p.tickers p.cash

/-! ### Performance-metrics update (`Backtester._update_performance_metrics`)

The Sharpe and Sortino updates divide a mean by a standard deviation, an
irrational quantity; the ratio value is therefore represented symbolically:
`RatioVal.ratio m v` stands for `sqrt(252) * m / sqrt(v)`, `v` being the
sample variance whose square root is the pandas `std()`.  Comparisons
`std > 1e-12` of the source are modelled exactly as `variance > 1e-24`
(equivalent, both sides being non-negative).  When pandas' `std()` of a
single data point yields `NaN`, `NaN > 1e-12` is false; `sampleVar` of a
singleton is `0/0 = 0` in `ℚ`, and `0 > 1e-24` is also false, so the branch
taken agrees with the source. -/

/-- The annualized ratio values the update can store. -/
inductive RatioVal where
  | ratio (mean : ℚ) (variance : ℚ)
  | zero
  | posInf
  deriving Repr, DecidableEq

/-- `pandas` mean of a series. -/
def listMean (l : List ℚ) : ℚ := l.sum / l.length

/-- Sample variance (`pandas` `std(ddof=1)` squared): `Σ (x - mean)² / (n - 1)`. -/
def sampleVar (l : List ℚ) : ℚ :=
  (l.map (fun x => (x - listMean l) ^ 2)).sum / ((l.length : ℚ) - 1)

/-- `daily_risk_free_rate = 0.0434 / 252`. -/
def daily_risk_free_rate : ℚ := (0.0434 : ℚ) / 252

/-- `excess_returns = clean_returns - daily_risk_free_rate`. -/
def excessReturns (clean_returns : List ℚ) : List ℚ :=
  clean_returns.map (fun r => r - daily_risk_free_rate)

/-- The Sharpe-ratio assignment of `_update_performance_metrics`. -/
def sharpeUpdate (clean_returns : List ℚ) : RatioVal :=
  let excess := excessReturns clean_returns
  if (1e-24 : ℚ) < sampleVar excess then .ratio (listMean excess) (sampleVar excess)
  else .zero

/-- The Sortino-ratio assignment of `_update_performance_metrics`. -/
def sortinoUpdate (clean_returns : List ℚ) : RatioVal :=
  let excess := excessReturns clean_returns
  let negative_returns := excess.filter (fun x => x < 0)
  if 0 < negative_returns.length then
    if (1e-24 : ℚ) < sampleVar negative_returns then
      .ratio (listMean excess) (sampleVar negative_returns)
    else if 0 < listMean excess then .posInf else .zero
  else if 0 < listMean excess then .posInf else .zero

/-- `_update_performance_metrics` restricted to the Sharpe/Sortino pair:
given the clean daily-return series, it leaves the metrics unchanged
(`none`) when fewer than two returns exist, else stores the pair. -/
def update_performance_metrics (clean_returns : List ℚ) :
    Option (RatioVal × RatioVal) :=
  if clean_returns.length < 2 then none
  else some (sharpeUpdate clean_returns, sortinoUpdate clean_returns)

/-! ### Cache (`src/data/cache.py`) -/

/-- A cached record: `key` is the value of the record's dedup field
(`item[key_field]` in the source, e.g. `"time"` for prices), `payload`
abstracts the rest of the record dict. -/
structure CacheRecord where
  key : String
  payload : ℕ
  deriving Repr, DecidableEq

/-- `Cache._merge_data`.  Python's `if not existing` is true both for `None`
and for an empty list. -/
def merge_data (existing : Option (List CacheRecord)) (new_data : List CacheRecord) :
    List CacheRecord :=
  let ex := existing.getD []
  if ex.isEmpty then new_data
  else ex ++ new_data.filter (fun item => !((ex.map CacheRecord.key).contains item.key))

/-- `Cache.set_prices` (and its siblings `set_financial_metrics` etc., which
differ only in the dict and dedup field used): store the merge of the
existing entry with the new data. -/
def set_prices (cache : String → Option (List CacheRecord)) (ticker : String)
    (data : List CacheRecord) : String → Option (List CacheRecord) :=
  updMap cache ticker (some (merge_data (cache ticker) data))

/-! ### Generic helper lemmas -/

lemma ratTrunc_intCast (n : ℤ) : ratTrunc (n : ℚ) = n := by
  unfold ratTrunc
  split_ifs with h
  · exact Int.floor_intCast n
  · exact Int.ceil_intCast n

lemma ratTrunc_nonneg {x : ℚ} (hx : 0 < x) : 0 ≤ ratTrunc x := by
  unfold ratTrunc
  rw [if_pos hx.le]
  exact Int.floor_nonneg.mpr hx.le

lemma not_intCast_nonpos {n : ℤ} (h : 0 < n) : ¬ ((n : ℚ) ≤ 0) := by
  push_neg
  exact_mod_cast h

lemma updMap_same {α : Type} (f : String → α) (t : String) (v : α) :
    updMap f t v t = v := by
  simp [updMap]

lemma updMap_self {α : Type} (f : String → α) (t : String) :
    updMap f t (f t) = f := by
  funext s
  by_cases h : s = t <;> simp [updMap, h]

/-! ### Claims -/

/-- C10: for every cache state and every `set` call, the stored list for the
key is exactly the previously-cached records, unchanged and in order,
followed by exactly those new records whose dedup key does not occur among
the previously-cached records. -/
theorem C10_cache_set_merges_dedup (cache : String → Option (List CacheRecord))
    (ticker : String) (data : List CacheRecord) :
    set_prices cache ticker data ticker =
      some ((cache ticker).getD [] ++
        data.filter (fun item =>
          !((((cache ticker).getD []).map CacheRecord.key).contains item.key))) := by
  unfold set_prices
  rw [updMap_same]
  unfold merge_data
  cases h : cache ticker with
  | none =>
    simp [List.filter_eq_self]
  | some ex =>
    cases ex with
    | nil => simp [List.filter_eq_self]
    | cons a l => simp

/-- C4: from zero long shares and sufficient cash, buying `n` shares at
price `pr` and then selling the same `n` shares at the same price restores
`cash` and the long realized-gains entry exactly and resets
`long_cost_basis` to 0. -/
theorem C4_buy_sell_round_trip (p : Portfolio) (t : String) (n : ℤ) (pr : ℚ)
    (hn : 0 < n) (hlong : (p.positions t).long = 0)
    (hc : (n : ℚ) * pr ≤ p.cash) :
    ((execute_trade (execute_trade p t "buy" (n : ℚ) pr).2 t "sell" (n : ℚ) pr).2).cash
        = p.cash ∧
    ((execute_trade (execute_trade p t "buy" (n : ℚ) pr).2 t "sell" (n : ℚ) pr).2).realized_gains_long t
        = p.realized_gains_long t ∧
    (((execute_trade (execute_trade p t "buy" (n : ℚ) pr).2 t "sell" (n : ℚ) pr).2).positions t).long_cost_basis
        = 0 := by
  have hq : ¬ (n : ℚ) ≤ 0 := not_intCast_nonpos hn
  have htr : ratTrunc ((n : ℚ)) = n := ratTrunc_intCast n
  have hc' : (ratTrunc ((n : ℚ)) : ℚ) * pr ≤ p.cash := by rw [htr]; exact hc
  rw [exec_buy_full p t (n : ℚ) pr hq hc']
  simp only [htr, updMap_same, hlong]
  have hpos : (0 : ℤ) < 0 + n := by omega
  rw [if_pos hpos]
  have hbasis : ((p.positions t).long_cost_basis * ((0 : ℤ) : ℚ) + (n : ℚ) * pr) /
      (((0 : ℤ) + n : ℤ) : ℚ) = pr := by
    have hn0 : ((n : ℤ) : ℚ) ≠ 0 := by exact_mod_cast hn.ne'
    push_cast
    field_simp
  rw [exec_sell_pos]
  rotate_left
  · exact hq
  · simp only [updMap_same, htr]
    omega
  simp only [updMap_same, htr, hbasis]
  have hmin : min n (0 + n) = n := by omega
  simp only [hmin]
  refine ⟨by ring, ?_, ?_⟩
  · rw [if_pos (by omega : (0 : ℤ) < 0 + n)]
    ring_nf
  · rw [if_pos (by omega : (0 : ℤ) + n - n = 0)]

/-- C5: from zero long shares, two fully-filled buys of `q1` shares at `p1`
and `q2` shares at `p2` leave `long_cost_basis` equal to the volume-weighted
average `(q1*p1 + q2*p2) / (q1 + q2)`. -/
theorem C5_two_buys_vwap (p : Portfolio) (t : String) (q1 q2 : ℤ) (p1 p2 : ℚ)
    (hq1 : 0 < q1) (hq2 : 0 < q2) (hlong : (p.positions t).long = 0)
    (h1 : (q1 : ℚ) * p1 ≤ p.cash)
    (h2 : (q2 : ℚ) * p2 ≤ ((execute_trade p t "buy" (q1 : ℚ) p1).2).cash) :
    (((execute_trade (execute_trade p t "buy" (q1 : ℚ) p1).2 t "buy" (q2 : ℚ) p2).2).positions t).long_cost_basis
      = ((q1 : ℚ) * p1 + (q2 : ℚ) * p2) / ((q1 : ℚ) + (q2 : ℚ)) := by
  have hq1' : ¬ (q1 : ℚ) ≤ 0 := not_intCast_nonpos hq1
  have hq2' : ¬ (q2 : ℚ) ≤ 0 := not_intCast_nonpos hq2
  have ht1 : ratTrunc ((q1 : ℚ)) = q1 := ratTrunc_intCast q1
  have ht2 : ratTrunc ((q2 : ℚ)) = q2 := ratTrunc_intCast q2
  have h1' : (ratTrunc ((q1 : ℚ)) : ℚ) * p1 ≤ p.cash := by rw [ht1]; exact h1
  have hc2 : (ratTrunc ((q2 : ℚ)) : ℚ) * p2 ≤ ((execute_trade p t "buy" (q1 : ℚ) p1).2).cash := by
    rw [ht2]; exact h2
  rw [exec_buy_full p t (q1 : ℚ) p1 hq1' h1'] at hc2 ⊢
  rw [exec_buy_full _ t (q2 : ℚ) p2 hq2' hc2]
  simp only [updMap_same, ht1, ht2, hlong]
  rw [if_pos (by omega : (0 : ℤ) < 0 + q1), if_pos (by omega : (0 : ℤ) < 0 + q1 + q2)]
  have hq1n : ((q1 : ℤ) : ℚ) ≠ 0 := by exact_mod_cast hq1.ne'
  have hq12n : ((q1 : ℚ) + (q2 : ℚ)) ≠ 0 := by
    have : (0 : ℚ) < (q1 : ℚ) + (q2 : ℚ) := by
      have a1 : (0 : ℚ) < (q1 : ℚ) := by exact_mod_cast hq1
      have a2 : (0 : ℚ) < (q2 : ℚ) := by exact_mod_cast hq2
      linarith
    exact this.ne'
  push_cast
  field_simp
  ring

/-- A small concrete portfolio: one ticker `"A"`, cash 1000, margin
requirement 1/2. -/
def pSample : Portfolio := initPortfolio ["A"] 1000 (1/2)

theorem C4_buy_sell_round_trip_witness :
    ((execute_trade (execute_trade pSample "A" "buy" ((3 : ℤ) : ℚ) 5).2 "A" "sell" ((3 : ℤ) : ℚ) 5).2).cash
        = pSample.cash ∧
    ((execute_trade (execute_trade pSample "A" "buy" ((3 : ℤ) : ℚ) 5).2 "A" "sell" ((3 : ℤ) : ℚ) 5).2).realized_gains_long "A"
        = pSample.realized_gains_long "A" ∧
    (((execute_trade (execute_trade pSample "A" "buy" ((3 : ℤ) : ℚ) 5).2 "A" "sell" ((3 : ℤ) : ℚ) 5).2).positions "A").long_cost_basis
        = 0 :=
  C4_buy_sell_round_trip pSample "A" 3 5 (by decide) rfl
    (by norm_num [pSample, initPortfolio])

theorem C5_two_buys_vwap_witness :
    (((execute_trade (execute_trade pSample "A" "buy" ((2 : ℤ) : ℚ) 10).2 "A" "buy" ((3 : ℤ) : ℚ) 20).2).positions "A").long_cost_basis
      = (((2 : ℤ) : ℚ) * 10 + ((3 : ℤ) : ℚ) * 20) / (((2 : ℤ) : ℚ) + ((3 : ℤ) : ℚ)) :=
  C5_two_buys_vwap pSample "A" 2 3 10 20 (by decide) (by decide) rfl
    (by norm_num [pSample, initPortfolio])
    (by norm_num +decide [execute_trade, pSample, initPortfolio, ratTrunc, updMap])

/-- A concrete portfolio with margin requirement 0: one ticker `"A"`,
cash 100. -/
def pZeroMargin : Portfolio := initPortfolio ["A"] 100 0

/-- C2 counterexample: with `margin_requirement = 0` and non-negative cash,
a short of 5 shares at price 10 is *not* blocked: `margin_required = 0 ≤
cash` holds, so the full-fill branch runs, fills 5 shares and changes the
portfolio (cash 100 → 150, short position 0 → 5). -/
theorem C2_short_zero_margin_counterexample :
    pZeroMargin.margin_requirement = 0 ∧ 0 ≤ pZeroMargin.cash ∧ (0 : ℚ) < 10 ∧
    (execute_trade pZeroMargin "A" "short" 5 10).1 = 5 ∧
    ((execute_trade pZeroMargin "A" "short" 5 10).2).cash = 150 ∧
    (((execute_trade pZeroMargin "A" "short" 5 10).2).positions "A").short = 5 := by
  refine ⟨rfl, by norm_num [pZeroMargin, initPortfolio], by norm_num, ?_, ?_, ?_⟩ <;>
    norm_num +decide [execute_trade, pZeroMargin, initPortfolio, ratTrunc, updMap]

/-- C2 amended: if `margin_requirement = 0` and cash is non-negative, a
short is filled in full (the truncated requested quantity), the proceeds
are added to cash, and no margin is posted; the blocking `max_quantity = 0`
branch the spec describes is reached only when cash is negative. -/
theorem C2_amended_short_zero_margin_fills (p : Portfolio) (t : String) (q pr : ℚ)
    (hm : p.margin_requirement = 0) (hcash : 0 ≤ p.cash) (hq : 0 < q) (_hpr : 0 < pr) :
    (execute_trade p t "short" q pr).1 = ratTrunc q ∧
    ((execute_trade p t "short" q pr).2).cash = p.cash + pr * (ratTrunc q : ℚ) ∧
    ((execute_trade p t "short" q pr).2).margin_used = p.margin_used ∧
    (((execute_trade p t "short" q pr).2).positions t).short
        = (p.positions t).short + ratTrunc q ∧
    (((execute_trade p t "short" q pr).2).positions t).short_margin_used
        = (p.positions t).short_margin_used := by
  have hq' : ¬ q ≤ 0 := not_le.mpr hq
  have hc : pr * (ratTrunc q : ℚ) * p.margin_requirement ≤ p.cash := by
    rw [hm, mul_zero]
    exact hcash
  rw [exec_short_full p t q pr hq' hc]
  simp only [updMap_same, hm, mul_zero, sub_zero, add_zero]
  exact ⟨trivial, trivial, trivial, trivial, trivial⟩

/-- The accounting of a positive-fill cover, in closed form: the margin
released is `(fill / pre-trade short) * short_margin_used`, and `short`,
`short_margin_used` and the portfolio's `margin_used` are decremented
accordingly (the `short == 0` reset coincides with the subtraction on a
full cover, because the released portion is then exactly 1). -/
lemma cover_step (p : Portfolio) (t : String) (q pr : ℚ) (hq : 0 < q)
    (hf : 0 < min (ratTrunc q) (p.positions t).short) :
    (execute_trade p t "cover" q pr).1 = min (ratTrunc q) (p.positions t).short ∧
    (((execute_trade p t "cover" q pr).2).positions t).short
        = (p.positions t).short - min (ratTrunc q) (p.positions t).short ∧
    (((execute_trade p t "cover" q pr).2).positions t).short_margin_used
        = (p.positions t).short_margin_used -
          (((min (ratTrunc q) (p.positions t).short : ℤ) : ℚ) / ((p.positions t).short : ℚ)) *
            (p.positions t).short_margin_used ∧
    ((execute_trade p t "cover" q pr).2).margin_used
        = p.margin_used -
          (((min (ratTrunc q) (p.positions t).short : ℤ) : ℚ) / ((p.positions t).short : ℚ)) *
            (p.positions t).short_margin_used ∧
    (((execute_trade p t "cover" q pr).2).positions t).short_cost_basis
        = (if (p.positions t).short - min (ratTrunc q) (p.positions t).short = 0 then 0
           else (p.positions t).short_cost_basis) := by
  have hq' : ¬ q ≤ 0 := not_le.mpr hq
  have hshort : 0 < (p.positions t).short := lt_of_lt_of_le hf (min_le_right _ _)
  rw [exec_cover_pos p t q pr hq' hf]
  simp only [updMap_same]
  rw [if_pos hshort]
  refine ⟨trivial, trivial, ?_, rfl, trivial⟩
  by_cases h0 : (p.positions t).short - min (ratTrunc q) (p.positions t).short = 0
  · rw [if_pos h0]
    have hmin : min (ratTrunc q) (p.positions t).short = (p.positions t).short := by omega
    rw [hmin, div_self (by exact_mod_cast hshort.ne' : ((p.positions t).short : ℚ) ≠ 0),
      one_mul, sub_self]
  · rw [if_neg h0]

/-- C3: a positive-fill cover releases margin proportionally, with the
pre-trade `short_shares` as denominator, decrementing `short_shares`,
`short_margin_used` and the portfolio's `margin_used` accordingly; and in
particular a short of `n` shares opened from a clean position and then
fully covered returns `margin_used` exactly to its pre-open value and
resets `short_margin_used` and `short_cost_basis` to 0. -/
theorem C3_cover_proportional_margin_release :
    (∀ (p : Portfolio) (t : String) (q pr : ℚ),
      0 < q → 0 < min (ratTrunc q) (p.positions t).short →
      (execute_trade p t "cover" q pr).1 = min (ratTrunc q) (p.positions t).short ∧
      (((execute_trade p t "cover" q pr).2).positions t).short
          = (p.positions t).short - min (ratTrunc q) (p.positions t).short ∧
      (((execute_trade p t "cover" q pr).2).positions t).short_margin_used
          = (p.positions t).short_margin_used -
            (((min (ratTrunc q) (p.positions t).short : ℤ) : ℚ) / ((p.positions t).short : ℚ)) *
              (p.positions t).short_margin_used ∧
      ((execute_trade p t "cover" q pr).2).margin_used
          = p.margin_used -
            (((min (ratTrunc q) (p.positions t).short : ℤ) : ℚ) / ((p.positions t).short : ℚ)) *
              (p.positions t).short_margin_used) ∧
    (∀ (p : Portfolio) (t : String) (n : ℤ) (pr pr2 : ℚ),
      0 < n → (p.positions t).short = 0 → (p.positions t).short_margin_used = 0 →
      pr * (n : ℚ) * p.margin_requirement ≤ p.cash →
      ((execute_trade (execute_trade p t "short" (n : ℚ) pr).2 t "cover" (n : ℚ) pr2).2).margin_used
          = p.margin_used ∧
      (((execute_trade (execute_trade p t "short" (n : ℚ) pr).2 t "cover" (n : ℚ) pr2).2).positions t).short_margin_used
          = 0 ∧
      (((execute_trade (execute_trade p t "short" (n : ℚ) pr).2 t "cover" (n : ℚ) pr2).2).positions t).short_cost_basis
          = 0) := by
  constructor
  · intro p t q pr hq hf
    exact ⟨(cover_step p t q pr hq hf).1, (cover_step p t q pr hq hf).2.1,
      (cover_step p t q pr hq hf).2.2.1, (cover_step p t q pr hq hf).2.2.2.1⟩
  · intro p t n pr pr2 hn hshort0 hsmu0 hc
    have hq' : ¬ (n : ℚ) ≤ 0 := not_intCast_nonpos hn
    have htr : ratTrunc ((n : ℚ)) = n := ratTrunc_intCast n
    have hc' : pr * (ratTrunc ((n : ℚ)) : ℚ) * p.margin_requirement ≤ p.cash := by
      rw [htr]; exact hc
    have e1 : ((execute_trade p t "short" (n : ℚ) pr).2).margin_used
        = p.margin_used + pr * (n : ℚ) * p.margin_requirement := by
      rw [exec_short_full p t (n : ℚ) pr hq' hc', htr]
    have e2 : (((execute_trade p t "short" (n : ℚ) pr).2).positions t).short = n := by
      rw [exec_short_full p t (n : ℚ) pr hq' hc']
      simp only [updMap_same, htr, hshort0, zero_add]
    have e3 : (((execute_trade p t "short" (n : ℚ) pr).2).positions t).short_margin_used
        = pr * (n : ℚ) * p.margin_requirement := by
      rw [exec_short_full p t (n : ℚ) pr hq' hc']
      simp only [updMap_same, htr, hsmu0, zero_add]
    have hf2 : 0 < min (ratTrunc ((n : ℚ)))
        ((((execute_trade p t "short" (n : ℚ) pr).2).positions t).short) := by
      rw [htr, e2]
      omega
    obtain ⟨-, -, hsmu', hmu', hscb'⟩ :=
      cover_step ((execute_trade p t "short" (n : ℚ) pr).2) t (n : ℚ) pr2
        (by exact_mod_cast hn) hf2
    have hminn : min (ratTrunc ((n : ℚ)))
        ((((execute_trade p t "short" (n : ℚ) pr).2).positions t).short) = n := by
      rw [htr, e2, min_self]
    have hdiv : ((min (ratTrunc ((n : ℚ)))
          ((((execute_trade p t "short" (n : ℚ) pr).2).positions t).short) : ℤ) : ℚ) /
        (((((execute_trade p t "short" (n : ℚ) pr).2).positions t).short : ℤ) : ℚ) = 1 := by
      rw [hminn, e2]
      exact div_self (by exact_mod_cast hn.ne' : ((n : ℤ) : ℚ) ≠ 0)
    refine ⟨?_, ?_, ?_⟩
    · rw [hmu', hdiv, one_mul, e1, e3]
      ring
    · rw [hsmu', hdiv, one_mul, sub_self]
    · rw [hscb', if_pos (by rw [hminn, e2, sub_self])]

/-- `pSample` after opening a short of 4 shares at price 10. -/
def pShorted : Portfolio := (execute_trade pSample "A" "short" ((4 : ℤ) : ℚ) 10).2

theorem C3_cover_proportional_margin_release_witness :
    ((execute_trade pShorted "A" "cover" 2 7).1
        = min (ratTrunc 2) ((pShorted.positions "A").short) ∧
      (((execute_trade pShorted "A" "cover" 2 7).2).positions "A").short
        = (pShorted.positions "A").short - min (ratTrunc 2) ((pShorted.positions "A").short) ∧
      (((execute_trade pShorted "A" "cover" 2 7).2).positions "A").short_margin_used
        = (pShorted.positions "A").short_margin_used -
          (((min (ratTrunc 2) ((pShorted.positions "A").short) : ℤ) : ℚ) /
            (((pShorted.positions "A").short : ℤ) : ℚ)) * (pShorted.positions "A").short_margin_used ∧
      ((execute_trade pShorted "A" "cover" 2 7).2).margin_used
        = pShorted.margin_used -
          (((min (ratTrunc 2) ((pShorted.positions "A").short) : ℤ) : ℚ) /
            (((pShorted.positions "A").short : ℤ) : ℚ)) * (pShorted.positions "A").short_margin_used) ∧
    ((execute_trade (execute_trade pSample "A" "short" ((4 : ℤ) : ℚ) 10).2 "A" "cover" ((4 : ℤ) : ℚ) 6).2).margin_used
        = pSample.margin_used ∧
    (((execute_trade (execute_trade pSample "A" "short" ((4 : ℤ) : ℚ) 10).2 "A" "cover" ((4 : ℤ) : ℚ) 6).2).positions "A").short_margin_used
        = 0 ∧
    (((execute_trade (execute_trade pSample "A" "short" ((4 : ℤ) : ℚ) 10).2 "A" "cover" ((4 : ℤ) : ℚ) 6).2).positions "A").short_cost_basis
        = 0 := by
  have h1 := C3_cover_proportional_margin_release.1 pShorted "A" 2 7 (by norm_num)
    (by norm_num +decide [pShorted, pSample, execute_trade, initPortfolio, ratTrunc, updMap])
  have h2 := C3_cover_proportional_margin_release.2 pSample "A" 4 10 6 (by decide) rfl rfl
    (by norm_num [pSample, initPortfolio])
  exact ⟨h1, h2⟩

theorem C2_amended_short_zero_margin_fills_witness :
    (execute_trade pZeroMargin "A" "short" 5 10).1 = ratTrunc 5 ∧
    ((execute_trade pZeroMargin "A" "short" 5 10).2).cash
        = pZeroMargin.cash + 10 * (ratTrunc 5 : ℚ) ∧
    ((execute_trade pZeroMargin "A" "short" 5 10).2).margin_used = pZeroMargin.margin_used ∧
    (((execute_trade pZeroMargin "A" "short" 5 10).2).positions "A").short
        = (pZeroMargin.positions "A").short + ratTrunc 5 ∧
    (((execute_trade pZeroMargin "A" "short" 5 10).2).positions "A").short_margin_used
        = (pZeroMargin.positions "A").short_margin_used :=
  C2_amended_short_zero_margin_fills pZeroMargin "A" 5 10 rfl
    (by norm_num [pZeroMargin, initPortfolio]) (by norm_num) (by norm_num)

/-- A daily-return series whose excess returns are `[-1, -1, 10, 10]`:
two equal negative excess returns (downside stdev exactly 0) and a positive
mean excess return. -/
def c9Returns : List ℚ :=
  [daily_risk_free_rate - 1, daily_risk_free_rate - 1,
   daily_risk_free_rate + 10, daily_risk_free_rate + 10]

/-- C9 counterexample: on `c9Returns` the stdev of the negative excess
returns is numerically zero (variance `0 ≤ 1e-24`), yet the update sets the
Sortino ratio to `+infinity` (the mean excess return being positive), not
to 0 as the claim states. -/
theorem C9_sortino_zero_std_counterexample :
    sampleVar ((excessReturns c9Returns).filter (fun x => x < 0)) ≤ (1e-24 : ℚ) ∧
    update_performance_metrics c9Returns
      = some (RatioVal.ratio (9 / 2) (121 / 3), RatioVal.posInf) := by
  constructor
  · norm_num [c9Returns, excessReturns, daily_risk_free_rate, sampleVar, listMean,
      List.filter]
  · norm_num [update_performance_metrics, sharpeUpdate, sortinoUpdate, c9Returns,
      excessReturns, daily_risk_free_rate, sampleVar, listMean, List.filter]

/-- C9 amended: with at least two clean returns, a numerically-zero stdev of
the excess returns makes the update store a Sharpe ratio of 0; a
numerically-zero stdev of the negative excess returns (which includes the
no-negative-returns case) makes it store `+infinity` as the Sortino ratio
if the mean excess return is positive and 0 otherwise.  No `NaN` and no
error is possible: the update always stores one of these values. -/
theorem C9_zero_std_branches (returns : List ℚ) (hlen : ¬ returns.length < 2) :
    (sampleVar (excessReturns returns) ≤ (1e-24 : ℚ) →
      update_performance_metrics returns
        = some (RatioVal.zero, sortinoUpdate returns)) ∧
    (sampleVar ((excessReturns returns).filter (fun x => x < 0)) ≤ (1e-24 : ℚ) →
      sortinoUpdate returns
        = if 0 < listMean (excessReturns returns) then RatioVal.posInf
          else RatioVal.zero) := by
  constructor
  · intro hv
    unfold update_performance_metrics sharpeUpdate
    rw [if_neg hlen, if_neg (not_lt.mpr hv)]
  · intro hv
    unfold sortinoUpdate
    by_cases hneg : 0 < ((excessReturns returns).filter (fun x => x < 0)).length
    · rw [if_pos hneg, if_neg (not_lt.mpr hv)]
    · rw [if_neg hneg]

theorem C9_zero_std_branches_witness :
    update_performance_metrics [0, 0, 0]
        = some (RatioVal.zero, sortinoUpdate [0, 0, 0]) ∧
    sortinoUpdate [0, 0, 0]
        = (if 0 < listMean (excessReturns [0, 0, 0]) then RatioVal.posInf
           else RatioVal.zero) := by
  have h := C9_zero_std_branches [0, 0, 0] (by norm_num)
  refine ⟨h.1 ?_, h.2 ?_⟩
  · norm_num [excessReturns, daily_risk_free_rate, sampleVar, listMean]
  · norm_num [excessReturns, daily_risk_free_rate, sampleVar, listMean, List.filter]

/-- A portfolio tracking `"A"` (1 long share) and `"B"` (no position). -/
def pTwoTickers : Portfolio where
  cash := 5
  margin_used := 0
  margin_requirement := 0
  tickers := ["A", "B"]
  positions := fun t => if t = "A" then ⟨1, 0, 10, 0, 0⟩ else ⟨0, 0, 0, 0, 0⟩
  realized_gains_long := fun _ => 0
  realized_gains_short := fun _ => 0

/-- A price dict holding a price only for `"A"`. -/
def pricesOnlyA : String → Option ℚ := fun t => if t = "A" then some 10 else none

/-- C7 counterexample: a price is supplied for every instrument with a
non-zero position (`"A"`), the zero-position instrument `"B"` is absent
from the price dict, and `calculate_portfolio_value` does *not* return
`cash + Σ long·price - Σ short·price`: it aborts with a `KeyError`
(modelled `none`), because the loop reads `current_prices[ticker]` for
every tracked ticker before looking at the position. -/
theorem C7_missing_price_counterexample :
    (pTwoTickers.positions "A").long = 1 ∧ pricesOnlyA "A" = some 10 ∧
    (pTwoTickers.positions "B").long = 0 ∧ (pTwoTickers.positions "B").short = 0 ∧
    pricesOnlyA "B" = none ∧
    calculate_portfolio_value pTwoTickers pricesOnlyA = none := by
  refine ⟨rfl, rfl, by norm_num +decide [pTwoTickers], by norm_num +decide [pTwoTickers],
    by norm_num +decide [pricesOnlyA], ?_⟩
  norm_num +decide [calculate_portfolio_value, calc_value_loop, pTwoTickers, pricesOnlyA]

/-- The valuation loop in closed form when every listed ticker has a price
and no short count is negative. -/
lemma calc_value_loop_eq (positions : String → Position) (prices : String → Option ℚ)
    (pf : String → ℚ) (l : List String) (acc : ℚ)
    (hall : ∀ t ∈ l, prices t = some (pf t))
    (hshort : ∀ t ∈ l, 0 ≤ (positions t).short) :
    calc_value_loop positions prices l acc
      = some (acc + (l.map (fun t => ((positions t).long : ℚ) * pf t)).sum
          - (l.map (fun t => ((positions t).short : ℚ) * pf t)).sum) := by
  induction l generalizing acc with
  | nil => simp [calc_value_loop]
  | cons t rest ih =>
    have hpt : prices t = some (pf t) := hall t (List.mem_cons_self t rest)
    rw [calc_value_loop, hpt]
    dsimp only
    rw [ih _ (fun s hs => hall s (List.mem_cons_of_mem t hs))
      (fun s hs => hshort s (List.mem_cons_of_mem t hs))]
    by_cases h : 0 < (positions t).short
    · rw [if_pos h]
      simp only [List.map_cons, List.sum_cons]
      congr 1
      ring
    · rw [if_neg h]
      have h0 : (positions t).short = 0 := le_antisymm (not_lt.mp h)
        (hshort t (List.mem_cons_self t rest))
      simp only [List.map_cons, List.sum_cons, h0, Int.cast_zero, zero_mul]
      congr 1
      ring

/-- C7 amended: `calculate_portfolio_value` requires a price for *every*
tracked instrument — a missing price raises a `KeyError` even for a
zero-position instrument — and when every tracked instrument has a price
(and no short count is negative) it returns
`cash + Σ long_shares·price - Σ short_shares·price`. -/
theorem C7_valuation_identity (p : Portfolio) (prices : String → Option ℚ)
    (pf : String → ℚ)
    (hall : ∀ t ∈ p.tickers, prices t = some (pf t))
    (hshort : ∀ t ∈ p.tickers, 0 ≤ (p.positions t).short) :
    calculate_portfolio_value p prices
      = some (p.cash + (p.tickers.map (fun t => ((p.positions t).long : ℚ) * pf t)).sum
          - (p.tickers.map (fun t => ((p.positions t).short : ℚ) * pf t)).sum) :=
  calc_value_loop_eq p.positions prices pf p.tickers p.cash hall hshort

/-! ### C8: execute_trade degrades to a smaller or zero fill -/

lemma ratTrunc_nonpos {x : ℚ} (hx : x < 0) : ratTrunc x ≤ 0 := by
  unfold ratTrunc
  rw [if_neg (not_le.mpr hx)]
  exact Int.ceil_le.mpr (by exact_mod_cast hx.le)

lemma updMap_eta {α : Type} (f : String → α) (t : String) (v : α) (hv : v = f t) :
    updMap f t v = f := by rw [hv, updMap_self]

lemma mul_cast_div_self (b : ℚ) (s : ℤ) :
    (if 0 < s then b * (s : ℚ) / ((s : ℤ) : ℚ) else b) = b := by
  split_ifs with h
  · rw [mul_div_assoc, div_self (by exact_mod_cast h.ne' : ((s : ℤ) : ℚ) ≠ 0), mul_one]
  · rfl

/-- The returned fill is a non-negative integer in every branch. -/
lemma exec_fill_nonneg (p : Portfolio) (t a : String) (q pr : ℚ) :
    0 ≤ (execute_trade p t a q pr).1 := by
  by_cases hq : q ≤ 0
  · rw [exec_nonpos p t a q pr hq]
  · have hq0 : 0 ≤ ratTrunc q := ratTrunc_nonneg (not_le.mp hq)
    by_cases hb : a = "buy"
    · subst hb
      by_cases hc : (ratTrunc q : ℚ) * pr ≤ p.cash
      · rw [exec_buy_full p t q pr hq hc]
        simpa using hq0
      · rw [exec_buy_capped p t q pr hq hc]
        by_cases h : 0 < ratTrunc (p.cash / pr)
        · rw [if_pos h]
          simpa using h.le
        · rw [if_neg h]
    · by_cases hs : a = "sell"
      · subst hs
        by_cases hf : 0 < min (ratTrunc q) (p.positions t).long
        · rw [exec_sell_pos p t q pr hq hf]
          simpa using hf.le
        · rw [exec_sell_zero p t q pr hq hf]
      · by_cases hsh : a = "short"
        · subst hsh
          by_cases hc : pr * (ratTrunc q : ℚ) * p.margin_requirement ≤ p.cash
          · rw [exec_short_full p t q pr hq hc]
            simpa using hq0
          · rw [exec_short_insufficient p t q pr hq hc]
            dsimp only
            by_cases hm : 0 < p.margin_requirement
            · rw [if_pos hm]
              by_cases h : 0 < ratTrunc (p.cash / (pr * p.margin_requirement))
              · rw [if_pos h]
                simpa using h.le
              · rw [if_neg h]
            · rw [if_neg hm, if_neg (lt_irrefl 0)]
        · by_cases hcv : a = "cover"
          · subst hcv
            by_cases hf : 0 < min (ratTrunc q) (p.positions t).short
            · rw [exec_cover_pos p t q pr hq hf]
              simpa using hf.le
            · rw [exec_cover_zero p t q pr hq hf]
          · rw [exec_unknown p t a q pr hb hs hsh hcv]

/-- A zero-truncation buy with non-negative cash goes through the full-fill
branch and changes nothing. -/
lemma exec_buy_trunc_zero_noop (p : Portfolio) (t : String) (q pr : ℚ)
    (hq : ¬ q ≤ 0) (htr : ratTrunc q = 0) (hcash : (0 : ℚ) ≤ p.cash) :
    execute_trade p t "buy" q pr = (0, p) := by
  have hc : (ratTrunc q : ℚ) * pr ≤ p.cash := by
    rw [htr]
    simpa using hcash
  rw [exec_buy_full p t q pr hq hc]
  refine Prod.ext htr ?_
  have hupd : updMap p.positions t
      { p.positions t with
        long := (p.positions t).long + ratTrunc q
        long_cost_basis :=
          if 0 < (p.positions t).long + ratTrunc q then
            ((p.positions t).long_cost_basis * ((p.positions t).long : ℚ) +
              (ratTrunc q : ℚ) * pr) / (((p.positions t).long + ratTrunc q : ℤ) : ℚ)
          else (p.positions t).long_cost_basis } = p.positions := by
    refine updMap_eta _ _ _ ?_
    refine Position.ext ?_ rfl ?_ rfl rfl
    · simp [htr]
    · simp only [htr, Int.cast_zero, zero_mul, add_zero]
      exact mul_cast_div_self _ _
  apply Portfolio.ext
  · simp [htr]
  · rfl
  · rfl
  · rfl
  · exact hupd
  · rfl
  · rfl

/-- A zero-truncation short with non-negative cash goes through the
full-fill branch and changes nothing. -/
lemma exec_short_trunc_zero_noop (p : Portfolio) (t : String) (q pr : ℚ)
    (hq : ¬ q ≤ 0) (htr : ratTrunc q = 0) (hcash : (0 : ℚ) ≤ p.cash) :
    execute_trade p t "short" q pr = (0, p) := by
  have hc : pr * (ratTrunc q : ℚ) * p.margin_requirement ≤ p.cash := by
    rw [htr]
    simpa using hcash
  rw [exec_short_full p t q pr hq hc]
  refine Prod.ext htr ?_
  have hupd : updMap p.positions t
      { p.positions t with
        short := (p.positions t).short + ratTrunc q
        short_cost_basis :=
          if 0 < (p.positions t).short + ratTrunc q then
            ((p.positions t).short_cost_basis * ((p.positions t).short : ℚ) +
              pr * (ratTrunc q : ℚ)) / (((p.positions t).short + ratTrunc q : ℤ) : ℚ)
          else (p.positions t).short_cost_basis
        short_margin_used :=
          (p.positions t).short_margin_used + pr * (ratTrunc q : ℚ) * p.margin_requirement }
      = p.positions := by
    refine updMap_eta _ _ _ ?_
    refine Position.ext rfl ?_ rfl ?_ ?_
    · simp [htr]
    · simp only [htr, Int.cast_zero, mul_zero, add_zero]
      exact mul_cast_div_self _ _
    · simp [htr]
  apply Portfolio.ext
  · simp [htr]
  · simp [htr]
  · rfl
  · rfl
  · exact hupd
  · rfl
  · rfl

/-- `execute_trade` is a no-op returning fill 0 for `hold`/unrecognized
actions, non-positive requested quantities, and quantities that truncate
to 0 whole shares. -/
lemma exec_noop (p : Portfolio) (t a : String) (q pr : ℚ) (hpr : 0 < pr)
    (h : (¬ (a = "buy" ∨ a = "sell" ∨ a = "short" ∨ a = "cover")) ∨
      q ≤ 0 ∨ ratTrunc q = 0) :
    execute_trade p t a q pr = (0, p) := by
  rcases h with h | hq | htr
  · push_neg at h
    exact exec_unknown p t a q pr h.1 h.2.1 h.2.2.1 h.2.2.2
  · exact exec_nonpos p t a q pr hq
  · by_cases hq : q ≤ 0
    · exact exec_nonpos p t a q pr hq
    by_cases hb : a = "buy"
    · subst hb
      by_cases hcash : (0 : ℚ) ≤ p.cash
      · exact exec_buy_trunc_zero_noop p t q pr hq htr hcash
      · have hc : ¬ (ratTrunc q : ℚ) * pr ≤ p.cash := by
          rw [htr]
          simpa using hcash
        rw [exec_buy_capped p t q pr hq hc]
        have hneg : p.cash / pr < 0 :=
          div_neg_of_neg_of_pos (not_le.mp hcash) hpr
        rw [if_neg (by have := ratTrunc_nonpos hneg; omega)]
    by_cases hs : a = "sell"
    · subst hs
      exact exec_sell_zero p t q pr hq (by rw [htr]; omega)
    by_cases hsh : a = "short"
    · subst hsh
      by_cases hcash : (0 : ℚ) ≤ p.cash
      · exact exec_short_trunc_zero_noop p t q pr hq htr hcash
      · have hc : ¬ pr * (ratTrunc q : ℚ) * p.margin_requirement ≤ p.cash := by
          rw [htr]
          simpa using hcash
        rw [exec_short_insufficient p t q pr hq hc]
        dsimp only
        by_cases hm : 0 < p.margin_requirement
        · rw [if_pos hm]
          have hneg : p.cash / (pr * p.margin_requirement) < 0 :=
            div_neg_of_neg_of_pos (not_le.mp hcash) (by positivity)
          rw [if_neg (by have := ratTrunc_nonpos hneg; omega)]
        · rw [if_neg hm, if_neg (lt_irrefl 0)]
    by_cases hcv : a = "cover"
    · subst hcv
      exact exec_cover_zero p t q pr hq (by rw [htr]; omega)
    · exact exec_unknown p t a q pr hb hs hsh hcv

/-- C8: `execute_trade` never raises: for every portfolio, instrument,
action string, requested quantity and positive price it returns a
non-negative integer fill, and whenever the action is not one of
buy/sell/short/cover (`hold` included), or the requested quantity is
non-positive or truncates to 0 whole shares, it returns fill 0 and leaves
the portfolio completely unchanged. -/
theorem C8_never_raises_degrades (p : Portfolio) (t a : String) (q pr : ℚ)
    (hpr : 0 < pr) :
    0 ≤ (execute_trade p t a q pr).1 ∧
    ((¬ (a = "buy" ∨ a = "sell" ∨ a = "short" ∨ a = "cover")) ∨
        q ≤ 0 ∨ ratTrunc q = 0 →
      execute_trade p t a q pr = (0, p)) :=
  ⟨exec_fill_nonneg p t a q pr, fun h => exec_noop p t a q pr hpr h⟩

theorem C8_never_raises_degrades_witness :
    (0 ≤ (execute_trade pSample "A" "hold" 5 10).1 ∧
      ((¬ ("hold" = "buy" ∨ "hold" = "sell" ∨ "hold" = "short" ∨ "hold" = "cover")) ∨
          (5 : ℚ) ≤ 0 ∨ ratTrunc 5 = 0 →
        execute_trade pSample "A" "hold" 5 10 = (0, pSample))) ∧
    execute_trade pSample "A" "hold" 5 10 = (0, pSample) := by
  have h := C8_never_raises_degrades pSample "A" "hold" 5 10 (by norm_num)
  exact ⟨h, h.2 (Or.inl (by decide))⟩

/-! ### C1: cash non-negativity -/

/-- Every branch of `execute_trade` except `cover` keeps cash non-negative
when the price is positive. -/
lemma cash_nonneg_step (p : Portfolio) (t a : String) (q pr : ℚ)
    (hpr : 0 < pr) (hncov : a ≠ "cover") (hcash : 0 ≤ p.cash) :
    0 ≤ ((execute_trade p t a q pr).2).cash := by
  by_cases hq : q ≤ 0
  · rw [exec_nonpos p t a q pr hq]
    exact hcash
  by_cases hb : a = "buy"
  · subst hb
    by_cases hc : (ratTrunc q : ℚ) * pr ≤ p.cash
    · rw [exec_buy_full p t q pr hq hc]
      show 0 ≤ p.cash - (ratTrunc q : ℚ) * pr
      have hq0 : (0 : ℚ) ≤ (ratTrunc q : ℚ) := by
        exact_mod_cast ratTrunc_nonneg (not_le.mp hq)
      nlinarith
    · rw [exec_buy_capped p t q pr hq hc]
      by_cases h : 0 < ratTrunc (p.cash / pr)
      · rw [if_pos h]
        show 0 ≤ p.cash - (ratTrunc (p.cash / pr) : ℚ) * pr
        have h1 : (ratTrunc (p.cash / pr) : ℚ) ≤ p.cash / pr := by
          unfold ratTrunc
          rw [if_pos (div_nonneg hcash hpr.le)]
          exact Int.floor_le _
        have h2 : (ratTrunc (p.cash / pr) : ℚ) * pr ≤ p.cash := by
          have := mul_le_mul_of_nonneg_right h1 hpr.le
          rwa [div_mul_cancel₀ _ hpr.ne'] at this
        linarith
      · rw [if_neg h]
        exact hcash
  by_cases hs : a = "sell"
  · subst hs
    by_cases hf : 0 < min (ratTrunc q) (p.positions t).long
    · rw [exec_sell_pos p t q pr hq hf]
      show 0 ≤ p.cash + ((min (ratTrunc q) (p.positions t).long : ℤ) : ℚ) * pr
      have h0 : (0 : ℚ) ≤ ((min (ratTrunc q) (p.positions t).long : ℤ) : ℚ) := by
        exact_mod_cast hf.le
      nlinarith
    · rw [exec_sell_zero p t q pr hq hf]
      exact hcash
  by_cases hsh : a = "short"
  · subst hsh
    by_cases hc : pr * (ratTrunc q : ℚ) * p.margin_requirement ≤ p.cash
    · rw [exec_short_full p t q pr hq hc]
      show 0 ≤ p.cash + pr * (ratTrunc q : ℚ) - pr * (ratTrunc q : ℚ) * p.margin_requirement
      have hq0 : (0 : ℚ) ≤ (ratTrunc q : ℚ) := by
        exact_mod_cast ratTrunc_nonneg (not_le.mp hq)
      nlinarith
    · rw [exec_short_insufficient p t q pr hq hc]
      dsimp only
      by_cases hm : 0 < p.margin_requirement
      · rw [if_pos hm]
        by_cases h : 0 < ratTrunc (p.cash / (pr * p.margin_requirement))
        · rw [if_pos h]
          show 0 ≤ p.cash + pr * (ratTrunc (p.cash / (pr * p.margin_requirement)) : ℚ)
              - pr * (ratTrunc (p.cash / (pr * p.margin_requirement)) : ℚ) * p.margin_requirement
          have hpm : (0 : ℚ) < pr * p.margin_requirement := mul_pos hpr hm
          have h1 : (ratTrunc (p.cash / (pr * p.margin_requirement)) : ℚ)
              ≤ p.cash / (pr * p.margin_requirement) := by
            unfold ratTrunc
            rw [if_pos (div_nonneg hcash hpm.le)]
            exact Int.floor_le _
          have h2 : (ratTrunc (p.cash / (pr * p.margin_requirement)) : ℚ) *
              (pr * p.margin_requirement) ≤ p.cash := by
            have := mul_le_mul_of_nonneg_right h1 hpm.le
            rwa [div_mul_cancel₀ _ hpm.ne'] at this
          have h3 : (0 : ℚ) ≤ (ratTrunc (p.cash / (pr * p.margin_requirement)) : ℚ) := by
            exact_mod_cast h.le
          nlinarith
        · rw [if_neg h]
          exact hcash
      · rw [if_neg hm, if_neg (lt_irrefl 0)]
        exact hcash
  · rw [exec_unknown p t a q pr hb hs hsh hncov]
    exact hcash

/-- The `pSample`-like portfolio of the C1 counterexample: cash 100,
margin requirement 1/2. -/
def pSmallCash : Portfolio := initPortfolio ["A"] 100 (1/2)

/-- The trade sequence of the C1 counterexample: open a short at price 10,
cover it after the price moved to 100. -/
def coverTrades : List Trade := [⟨"A", "short", 10, 10⟩, ⟨"A", "cover", 10, 100⟩]

/-- C1 counterexample: starting from non-negative cash (100), a sequence of
two `execute_trade` calls at positive prices drives cash to −800: the cover
branch pays `fill * price` without any affordability check. -/
theorem C1_cover_drives_cash_negative :
    0 ≤ pSmallCash.cash ∧ (∀ tr ∈ coverTrades, 0 < tr.price) ∧
    (runTrades pSmallCash coverTrades).cash = -800 := by
  refine ⟨by norm_num [pSmallCash, initPortfolio], ?_, ?_⟩
  · intro tr htr
    fin_cases htr <;> norm_num
  · norm_num +decide [runTrades, execute_trade, pSmallCash, initPortfolio, ratTrunc,
      updMap, coverTrades]

/-- C1 amended: for every portfolio with non-negative cash and every
sequence of `execute_trade` calls at positive prices in which no call is a
`cover`, cash stays non-negative after every call.  (The original claim is
false: a `cover` pays `fill * price` unconditionally and can drive cash
negative, see the counterexample.) -/
theorem C1_cash_nonneg_without_cover (p : Portfolio) (trades : List Trade)
    (hcash : 0 ≤ p.cash)
    (h : ∀ tr ∈ trades, 0 < tr.price ∧ tr.action ≠ "cover") :
    0 ≤ (runTrades p trades).cash := by
  induction trades generalizing p with
  | nil => simpa [runTrades] using hcash
  | cons tr rest ih =>
    simp only [runTrades, List.foldl_cons] at ih ⊢
    have hhd := h tr (List.mem_cons_self tr rest)
    exact ih _ (cash_nonneg_step p tr.ticker tr.action tr.quantity tr.price
        hhd.1 hhd.2 hcash)
      (fun s hs => h s (List.mem_cons_of_mem tr hs))

theorem C1_cash_nonneg_without_cover_witness :
    0 ≤ (runTrades pSmallCash
      [⟨"A", "buy", 3, 10⟩, ⟨"A", "short", 10, 10⟩, ⟨"A", "sell", 3, 2⟩]).cash :=
  C1_cash_nonneg_without_cover pSmallCash
    [⟨"A", "buy", 3, 10⟩, ⟨"A", "short", 10, 10⟩, ⟨"A", "sell", 3, 2⟩]
    (by norm_num [pSmallCash, initPortfolio])
    (by intro tr htr
        fin_cases htr <;> exact ⟨by norm_num, by decide⟩)

/-! ### C6: `margin_used` is the sum of the per-ticker `short_margin_used` -/

/-- The sum of `short_margin_used` over the tracked tickers. -/
def sumSMU (p : Portfolio) : ℚ :=
  (p.tickers.map (fun s => (p.positions s).short_margin_used)).sum

lemma sum_map_update (l : List String) (hnd : l.Nodup) (t : String) (ht : t ∈ l)
    (f : String → ℚ) (v : ℚ) :
    (l.map (fun s => if s = t then v else f s)).sum = (l.map f).sum - f t + v := by
  induction l with
  | nil => cases ht
  | cons a rest ih =>
    rcases List.mem_cons.mp ht with h | h
    · subst h
      have hnotin : t ∉ rest := (List.nodup_cons.mp hnd).1
      have hrest : (rest.map (fun s => if s = t then v else f s)).sum
          = (rest.map f).sum := by
        have hcong : rest.map (fun s => if s = t then v else f s) = rest.map f :=
          List.map_congr_left (fun s hs => if_neg (by rintro rfl; exact hnotin hs))
        rw [hcong]
      simp only [List.map_cons, List.sum_cons]
      rw [if_pos trivial, hrest]
      ring
    · have hne : a ≠ t := by rintro rfl; exact (List.nodup_cons.mp hnd).1 h
      simp only [List.map_cons, List.sum_cons, if_neg hne]
      rw [ih (List.nodup_cons.mp hnd).2 h]
      ring

lemma sum_smu_upd (l : List String) (hnd : l.Nodup) (t : String) (ht : t ∈ l)
    (pos : String → Position) (v : Position) :
    (l.map (fun s => ((updMap pos t v) s).short_margin_used)).sum
      = (l.map (fun s => (pos s).short_margin_used)).sum -
          (pos t).short_margin_used + v.short_margin_used := by
  have hpt : ∀ s, ((updMap pos t v) s).short_margin_used
      = if s = t then v.short_margin_used else (pos s).short_margin_used := by
    intro s
    unfold updMap
    split_ifs <;> rfl
  simp only [hpt]
  exact sum_map_update l hnd t ht (fun s => (pos s).short_margin_used) _

/-- One `execute_trade` call preserves the margin invariant: `margin_used`
remains the sum of the per-ticker `short_margin_used`, every
`short_margin_used` stays non-negative, and the ticker list and margin
requirement are untouched. -/
lemma margin_inv_step (p : Portfolio) (t a : String) (q pr : ℚ)
    (ht : t ∈ p.tickers) (hnd : p.tickers.Nodup) (hpr : 0 < pr)
    (hm : 0 ≤ p.margin_requirement)
    (hsum : p.margin_used = sumSMU p)
    (hpos : ∀ s, 0 ≤ (p.positions s).short_margin_used) :
    ((execute_trade p t a q pr).2).margin_used = sumSMU ((execute_trade p t a q pr).2) ∧
    (∀ s, 0 ≤ (((execute_trade p t a q pr).2).positions s).short_margin_used) ∧
    ((execute_trade p t a q pr).2).tickers = p.tickers ∧
    ((execute_trade p t a q pr).2).margin_requirement = p.margin_requirement := by
  by_cases hq : q ≤ 0
  · rw [exec_nonpos p t a q pr hq]
    exact ⟨hsum, hpos, rfl, rfl⟩
  have hq0 : (0 : ℚ) ≤ (ratTrunc q : ℚ) := by
    exact_mod_cast ratTrunc_nonneg (not_le.mp hq)
  by_cases hb : a = "buy"
  · subst hb
    by_cases hc : (ratTrunc q : ℚ) * pr ≤ p.cash
    · rw [exec_buy_full p t q pr hq hc]
      dsimp only
      refine ⟨?_, ?_, rfl, rfl⟩
      · unfold sumSMU
        dsimp only
        rw [sum_smu_upd p.tickers hnd t ht]
        simpa using hsum
      · intro s
        dsimp only [updMap]
        by_cases hst : s = t
        · rw [if_pos hst]
          exact hpos t
        · rw [if_neg hst]
          exact hpos s
    · rw [exec_buy_capped p t q pr hq hc]
      by_cases h : 0 < ratTrunc (p.cash / pr)
      · rw [if_pos h]
        dsimp only
        refine ⟨?_, ?_, rfl, rfl⟩
        · unfold sumSMU
          dsimp only
          rw [sum_smu_upd p.tickers hnd t ht]
          simpa using hsum
        · intro s
          dsimp only [updMap]
          by_cases hst : s = t
          · rw [if_pos hst]
            exact hpos t
          · rw [if_neg hst]
            exact hpos s
      · rw [if_neg h]
        exact ⟨hsum, hpos, rfl, rfl⟩
  by_cases hs : a = "sell"
  · subst hs
    by_cases hf : 0 < min (ratTrunc q) (p.positions t).long
    · rw [exec_sell_pos p t q pr hq hf]
      dsimp only
      refine ⟨?_, ?_, rfl, rfl⟩
      · unfold sumSMU
        dsimp only
        rw [sum_smu_upd p.tickers hnd t ht]
        simpa using hsum
      · intro s
        dsimp only [updMap]
        by_cases hst : s = t
        · rw [if_pos hst]
          exact hpos t
        · rw [if_neg hst]
          exact hpos s
    · rw [exec_sell_zero p t q pr hq hf]
      exact ⟨hsum, hpos, rfl, rfl⟩
  by_cases hsh : a = "short"
  · subst hsh
    by_cases hc : pr * (ratTrunc q : ℚ) * p.margin_requirement ≤ p.cash
    · rw [exec_short_full p t q pr hq hc]
      dsimp only
      have hmr : 0 ≤ pr * (ratTrunc q : ℚ) * p.margin_requirement := by positivity
      refine ⟨?_, ?_, rfl, rfl⟩
      · unfold sumSMU
        dsimp only
        rw [sum_smu_upd p.tickers hnd t ht, hsum]
        unfold sumSMU
        ring
      · intro s
        dsimp only [updMap]
        by_cases hst : s = t
        · rw [if_pos hst]
          dsimp only
          have := hpos t
          linarith
        · rw [if_neg hst]
          exact hpos s
    · rw [exec_short_insufficient p t q pr hq hc]
      dsimp only
      by_cases hm0 : 0 < p.margin_requirement
      · rw [if_pos hm0]
        by_cases h : 0 < ratTrunc (p.cash / (pr * p.margin_requirement))
        · rw [if_pos h]
          dsimp only
          have hq0p : (0 : ℚ) ≤ (ratTrunc (p.cash / (pr * p.margin_requirement)) : ℚ) := by
            exact_mod_cast h.le
          have hmr : 0 ≤ pr * (ratTrunc (p.cash / (pr * p.margin_requirement)) : ℚ) *
              p.margin_requirement := by positivity
          refine ⟨?_, ?_, rfl, rfl⟩
          · unfold sumSMU
            dsimp only
            rw [sum_smu_upd p.tickers hnd t ht, hsum]
            unfold sumSMU
            ring
          · intro s
            dsimp only [updMap]
            by_cases hst : s = t
            · rw [if_pos hst]
              dsimp only
              have := hpos t
              linarith
            · rw [if_neg hst]
              exact hpos s
        · rw [if_neg h]
          exact ⟨hsum, hpos, rfl, rfl⟩
      · rw [if_neg hm0, if_neg (lt_irrefl 0)]
        exact ⟨hsum, hpos, rfl, rfl⟩
  by_cases hcv : a = "cover"
  · subst hcv
    by_cases hf : 0 < min (ratTrunc q) (p.positions t).short
    · have hshort : 0 < (p.positions t).short := lt_of_lt_of_le hf (min_le_right _ _)
      have hshortQ : (0 : ℚ) < ((p.positions t).short : ℚ) := by exact_mod_cast hshort
      have hfle : ((min (ratTrunc q) (p.positions t).short : ℤ) : ℚ)
          ≤ ((p.positions t).short : ℚ) := by
        exact_mod_cast min_le_right (ratTrunc q) (p.positions t).short
      have hf0 : (0 : ℚ) ≤ ((min (ratTrunc q) (p.positions t).short : ℤ) : ℚ) := by
        exact_mod_cast hf.le
      have hportion1 : ((min (ratTrunc q) (p.positions t).short : ℤ) : ℚ) /
          ((p.positions t).short : ℚ) ≤ 1 := (div_le_one hshortQ).mpr hfle
      have hsmu_eq : (if (p.positions t).short - min (ratTrunc q) (p.positions t).short = 0
            then (0 : ℚ)
            else (p.positions t).short_margin_used -
              ((min (ratTrunc q) (p.positions t).short : ℤ) : ℚ) /
                ((p.positions t).short : ℚ) * (p.positions t).short_margin_used)
          = (p.positions t).short_margin_used -
              ((min (ratTrunc q) (p.positions t).short : ℤ) : ℚ) /
                ((p.positions t).short : ℚ) * (p.positions t).short_margin_used := by
        split_ifs with h0
        · have hmin : min (ratTrunc q) (p.positions t).short = (p.positions t).short := by
            omega
          rw [hmin, div_self hshortQ.ne', one_mul, sub_self]
        · rfl
      rw [exec_cover_pos p t q pr hq hf]
      dsimp only
      rw [if_pos hshort]
      refine ⟨?_, ?_, rfl, rfl⟩
      · unfold sumSMU
        dsimp only
        rw [sum_smu_upd p.tickers hnd t ht, hsmu_eq, hsum]
        unfold sumSMU
        ring
      · intro s
        dsimp only [updMap]
        by_cases hst : s = t
        · rw [if_pos hst]
          dsimp only
          rw [hsmu_eq]
          have h1 : ((min (ratTrunc q) (p.positions t).short : ℤ) : ℚ) /
              ((p.positions t).short : ℚ) * (p.positions t).short_margin_used
              ≤ 1 * (p.positions t).short_margin_used :=
            mul_le_mul_of_nonneg_right hportion1 (hpos t)
          rw [one_mul] at h1
          linarith
        · rw [if_neg hst]
          exact hpos s
    · rw [exec_cover_zero p t q pr hq hf]
      exact ⟨hsum, hpos, rfl, rfl⟩
  · rw [exec_unknown p t a q pr hb hs hsh hcv]
    exact ⟨hsum, hpos, rfl, rfl⟩

/-- The margin invariant is preserved along any admissible trade sequence. -/
lemma margin_inv_run (p : Portfolio) (trades : List Trade)
    (hnd : p.tickers.Nodup) (hm : 0 ≤ p.margin_requirement)
    (h : ∀ tr ∈ trades, 0 < tr.price ∧ tr.ticker ∈ p.tickers)
    (hsum : p.margin_used = sumSMU p)
    (hpos : ∀ s, 0 ≤ (p.positions s).short_margin_used) :
    (runTrades p trades).margin_used = sumSMU (runTrades p trades) ∧
    (∀ s, 0 ≤ ((runTrades p trades).positions s).short_margin_used) ∧
    (runTrades p trades).tickers = p.tickers := by
  induction trades generalizing p with
  | nil => exact ⟨hsum, hpos, rfl⟩
  | cons tr rest ih =>
    simp only [runTrades, List.foldl_cons] at ih ⊢
    have hhd := h tr (List.mem_cons_self tr rest)
    obtain ⟨s1, s2, s3, s4⟩ := margin_inv_step p tr.ticker tr.action tr.quantity tr.price
      hhd.2 hnd hhd.1 hm hsum hpos
    have hrest := ih ((execute_trade p tr.ticker tr.action tr.quantity tr.price).2)
      (by rw [s3]; exact hnd) (by rw [s4]; exact hm)
      (fun x hx => ⟨(h x (List.mem_cons_of_mem tr hx)).1,
        by rw [s3]; exact (h x (List.mem_cons_of_mem tr hx)).2⟩)
      s1 s2
    exact ⟨hrest.1, hrest.2.1, hrest.2.2.trans s3⟩

/-- C6: starting from the freshly initialized portfolio, after every
sequence of `execute_trade` calls (positive prices, tracked tickers,
non-negative initial margin requirement, distinct tickers), `margin_used`
equals the sum over the tracked instruments of `short_margin_used`, and
both `margin_used` and every `short_margin_used` are non-negative. -/
theorem C6_margin_used_sums_short_margins (tickers : List String) (cap m : ℚ)
    (trades : List Trade) (hnd : tickers.Nodup) (hm : 0 ≤ m)
    (h : ∀ tr ∈ trades, 0 < tr.price ∧ tr.ticker ∈ tickers) :
    (runTrades (initPortfolio tickers cap m) trades).margin_used
        = sumSMU (runTrades (initPortfolio tickers cap m) trades) ∧
    0 ≤ (runTrades (initPortfolio tickers cap m) trades).margin_used ∧
    ∀ s, 0 ≤ ((runTrades (initPortfolio tickers cap m) trades).positions s).short_margin_used := by
  obtain ⟨h1, h2, h3⟩ := margin_inv_run (initPortfolio tickers cap m) trades hnd hm h
    (by
      unfold sumSMU initPortfolio
      simp)
    (by intro s; exact le_refl 0)
  refine ⟨h1, ?_, h2⟩
  rw [h1]
  unfold sumSMU
  apply List.sum_nonneg
  intro x hx
  obtain ⟨s, -, rfl⟩ := List.mem_map.mp hx
  exact h2 s

theorem C6_margin_used_sums_short_margins_witness :
    (runTrades (initPortfolio ["A", "B"] 1000 (1/2))
        [⟨"A", "short", 4, 10⟩, ⟨"B", "short", 2, 5⟩, ⟨"A", "cover", 3, 10⟩]).margin_used
      = sumSMU (runTrades (initPortfolio ["A", "B"] 1000 (1/2))
        [⟨"A", "short", 4, 10⟩, ⟨"B", "short", 2, 5⟩, ⟨"A", "cover", 3, 10⟩]) ∧
    0 ≤ (runTrades (initPortfolio ["A", "B"] 1000 (1/2))
        [⟨"A", "short", 4, 10⟩, ⟨"B", "short", 2, 5⟩, ⟨"A", "cover", 3, 10⟩]).margin_used ∧
    ∀ s, 0 ≤ ((runTrades (initPortfolio ["A", "B"] 1000 (1/2))
        [⟨"A", "short", 4, 10⟩, ⟨"B", "short", 2, 5⟩, ⟨"A", "cover", 3, 10⟩]).positions s).short_margin_used :=
  C6_margin_used_sums_short_margins ["A", "B"] 1000 (1/2)
    [⟨"A", "short", 4, 10⟩, ⟨"B", "short", 2, 5⟩, ⟨"A", "cover", 3, 10⟩]
    (by decide) (by norm_num)
    (by intro tr htr
        fin_cases htr <;> exact ⟨by norm_num, by decide⟩)

theorem C7_valuation_identity_witness :
    calculate_portfolio_value pTwoTickers (fun t => if t = "A" then some 10 else some 3)
      = some (pTwoTickers.cash
          + (pTwoTickers.tickers.map
              (fun t => ((pTwoTickers.positions t).long : ℚ) *
                (if t = "A" then (10 : ℚ) else 3))).sum
          - (pTwoTickers.tickers.map
              (fun t => ((pTwoTickers.positions t).short : ℚ) *
                (if t = "A" then (10 : ℚ) else 3))).sum) :=
  C7_valuation_identity pTwoTickers (fun t => if t = "A" then some 10 else some 3)
    (fun t => if t = "A" then (10 : ℚ) else 3)
    (by intro t ht; by_cases h : t = "A" <;> simp [h])
    (by intro t ht
        fin_cases ht <;> norm_num +decide [pTwoTickers])

end HedgeFund
